import Mathlib

/-!
# Verification of the TAI_Project3 visualization and reporting scripts

This file gives a shallow embedding, in Lean 4, of the data transformations
performed by the Python scripts of the repository (accuracy-metric
computation, CSV/JSON table loading and filtering, group-by aggregation,
outlier detection, rank-stability aggregation, timestamp extraction and
summary statistics), and proves properties of those transformations.

Strings are modelled as `List Char` (Python operates on ASCII text here),
floats as `ℚ`, integers as `ℤ`, dataframes as lists of row structures, and
fallible operations as `Option`/`Except`.
-/

set_option autoImplicit false

namespace TAI

/-! ## Character-level model of the Python text operations

The scripts only ever deal with ASCII song/file names, so the Python
character classes are modelled over `Char` through ASCII codes. -/

/-- Python regex `\s` class on ASCII text: space, tab, newline, carriage
return, vertical tab, form feed. -/
def isSpacePy (c : Char) : Bool :=
  c.toNat = 32 || c.toNat = 9 || c.toNat = 10 || c.toNat = 13 ||
  c.toNat = 11 || c.toNat = 12

/-- ASCII lowercase letter, Python regex class `[a-z]`. -/
def isLowerAZ (c : Char) : Bool := 97 ≤ c.toNat && c.toNat ≤ 122

/-- ASCII uppercase letter. -/
def isUpperAZ (c : Char) : Bool := 65 ≤ c.toNat && c.toNat ≤ 90

/-- ASCII digit, Python regex class `[0-9]` / `\d`. -/
def isDigit09 (c : Char) : Bool := 48 ≤ c.toNat && c.toNat ≤ 57

/-- The class `[a-z0-9]` kept by `normalize_song_name`. -/
def keepChar (c : Char) : Bool := isLowerAZ c || isDigit09 c

/-- The class `[-_]` replaced by spaces in `normalize_song_name`, and
stripped at both ends by `extract_song_name` (`name.strip('_-')`). -/
def isDashUnd (c : Char) : Bool := c.toNat = 45 || c.toNat = 95

/-- Python `str.lower` on an ASCII character. -/
def toLowerPy (c : Char) : Char :=
  if isUpperAZ c then Char.ofNat (c.toNat + 32) else c

/-- One character of `re.sub(r'[^a-z0-9\s]', ' ', name)`: any character
that is not a lowercase alphanumeric and not whitespace becomes a space. -/
def subSpecial (c : Char) : Char :=
  if keepChar c || isSpacePy c then c else ' '

/-- Worker for `subRuns`: `inRun` records whether the previous character
belonged to a (already replaced) run of characters matching `p`. -/
def subRunsAux (p : Char → Bool) : Bool → List Char → List Char
  | _, [] => []
  | inRun, c :: rest =>
    if p c then
      if inRun then subRunsAux p true rest
      else ' ' :: subRunsAux p true rest
    else c :: subRunsAux p false rest

/-- Python `re.sub(r'X+', ' ', s)` for a character class `X`: every maximal
run of characters matching `p` is replaced by a single space. -/
def subRuns (p : Char → Bool) (l : List Char) : List Char :=
  subRunsAux p false l

/-- Python `str.rstrip`: remove the trailing run of characters matching `p`. -/
def rstripPy (p : Char → Bool) : List Char → List Char
  | [] => []
  | c :: rest =>
    let r := rstripPy p rest
    if r.isEmpty && p c then [] else c :: r

/-- Python `str.strip`: remove leading and trailing characters matching `p`. -/
def stripPy (p : Char → Bool) (l : List Char) : List Char :=
  rstripPy p (l.dropWhile p)

/-! ## `normalize_song_name` (src/scripts/calculate_accuracy.py, lines 45-67) -/

/-- `normalize_song_name`: lowercase, turn runs of `[-_]` into one space,
turn the remaining special characters into spaces, collapse whitespace runs
to single spaces, and strip. Empty input short-circuits to the empty
string. -/
def normalize_song_name (l : List Char) : List Char :=
  if l = [] then []
  else
    stripPy isSpacePy
      (subRuns isSpacePy
        ((subRuns isDashUnd (l.map toLowerPy)).map subSpecial))

/-! ## `extract_song_name` (src/scripts/calculate_accuracy.py, lines 16-43) -/

/-- Final path component (what `pathlib` calls the name): the characters
after the last `/`. -/
def pyBasename (l : List Char) : List Char :=
  (l.reverse.takeWhile (fun c => c != '/')).reverse

/-- `pathlib.Path(...).stem` on the final path component: drop the last
extension, i.e. cut at the last dot provided that dot is neither the first
nor the last character of the component. -/
def pyStem (l : List Char) : List Char :=
  let name := pyBasename l
  match ((List.range name.length).filter
      (fun i => name.get? i == some '.')).getLast? with
  | some i => if 0 < i ∧ i < name.length - 1 then name.take i else name
  | none => name

/-- `re.sub(r'(suffix)$', '', name, flags=re.IGNORECASE)` for a literal
suffix given in lowercase: if the lowercased name ends with it, drop it. -/
def dropSuffixCI (suf : List Char) (name : List Char) : List Char :=
  if suf.isSuffixOf (name.map toLowerPy) then
    name.take (name.length - suf.length)
  else name

/-- `re.sub` with an alternation of anchored literal suffixes: the first
alternative (in the regex order) that matches is removed. -/
def dropAnySuffixCI (sufs : List (List Char)) (name : List Char) : List Char :=
  match sufs.find? (fun s => s.isSuffixOf (name.map toLowerPy)) with
  | some s => name.take (name.length - s.length)
  | none => name

/-- `re.sub(r'_t\d+s$', '', name, flags=re.IGNORECASE)`: drop a trailing
timestamp such as `_t30s`. Matching from the end: a final `s`, preceded by
a nonempty digit run, preceded by `t`, preceded by `_`. -/
def dropTimestampSuffix (name : List Char) : List Char :=
  match name.reverse with
  | s :: rest =>
    if toLowerPy s = 's' then
      match rest.takeWhile isDigit09, rest.dropWhile isDigit09 with
      | _ :: _, t :: u :: _ =>
        if toLowerPy t = 't' && u = '_' then
          name.take (name.length - ((rest.takeWhile isDigit09).length + 3))
        else name
      | _, _ => name
    else name
  | [] => name

/-- `extract_song_name`: take the path stem, remove a `sample_` prefix, the
feature-method suffix, the noise suffix, the timestamp suffix and the
`-Main-version` suffix, then strip `_` and `-` from both ends. -/
def extract_song_name (filename : List Char) : List Char :=
  let name := pyStem filename
  let name := if ("sample_".toList).isPrefixOf name then name.drop 7 else name
  let name := dropAnySuffixCI ["_spectral".toList, "_maxfreq".toList] name
  let name := dropAnySuffixCI
    ["_white_noise".toList, "_pink_noise".toList, "_brown_noise".toList] name
  let name := dropTimestampSuffix name
  let name := dropSuffixCI ("-main-version".toList) name
  stripPy isDashUnd name

/-! ## `fuzzy_match` (src/scripts/calculate_accuracy.py, lines 69-96) -/

/-- Python `str.split()` with no separator: split on whitespace runs,
producing no empty words. `acc` holds the characters of the current word in
reverse. -/
def splitWsAux : List Char → List Char → List (List Char)
  | acc, [] => if acc = [] then [] else [acc.reverse]
  | acc, c :: rest =>
    if isSpacePy c then
      if acc = [] then splitWsAux [] rest
      else acc.reverse :: splitWsAux [] rest
    else splitWsAux (c :: acc) rest

/-- Python `name.split()`. -/
def pySplitWs (l : List Char) : List (List Char) := splitWsAux [] l

/-- Python substring containment `a in b`: `a` is a contiguous substring
of `b`. -/
def substringOf (a b : List Char) : Bool :=
  b.tails.any (fun t => a.isPrefixOf t)

/-- `fuzzy_match`: exact equality, containment for names longer than 3
characters, or word-set inclusion of the shorter name's words in the longer
name's words. Python sets are modelled by deduplicated word lists. -/
def fuzzy_match (n1 n2 : List Char) : Bool :=
  if n1 = n2 then true
  else if (3 < n1.length && 3 < n2.length) &&
      (substringOf n1 n2 || substringOf n2 n1) then true
  else
    let w1 := (pySplitWs n1).dedup
    let w2 := (pySplitWs n2).dedup
    if w1.length = 0 || w2.length = 0 then false
    else
      let shorter := if w1.length ≤ w2.length then w1 else w2
      let longer := if w1.length ≤ w2.length then w2 else w1
      (0 < shorter.length) && shorter.all (fun w => longer.contains w)

/-! ## Properties of the text pipeline -/

theorem subRunsAux_nil (p : Char → Bool) (b : Bool) : subRunsAux p b [] = [] := by
  cases b <;> rfl

theorem subRunsAux_cons_run {p : Char → Bool} {d : Char} (rest : List Char)
    (h : p d = true) :
    subRunsAux p true (d :: rest) = subRunsAux p true rest := by
  simp [subRunsAux, h]

theorem subRunsAux_cons_start {p : Char → Bool} {d : Char} (rest : List Char)
    (h : p d = true) :
    subRunsAux p false (d :: rest) = ' ' :: subRunsAux p true rest := by
  simp [subRunsAux, h]

theorem subRunsAux_cons_keep {p : Char → Bool} {d : Char} (rest : List Char)
    (b : Bool) (h : p d = false) :
    subRunsAux p b (d :: rest) = d :: subRunsAux p false rest := by
  cases b <;> simp [subRunsAux, h]

/-- Every character of `subRunsAux p b l` is either a space introduced for
a run, or a character of `l` not matching `p`. -/
theorem mem_subRunsAux {p : Char → Bool} {l : List Char} {c : Char} :
    ∀ {b : Bool}, c ∈ subRunsAux p b l → c = ' ' ∨ (c ∈ l ∧ p c = false) := by
  induction l with
  | nil => intro b h; rw [subRunsAux_nil] at h; simp at h
  | cons d rest ih =>
    intro b h
    cases hpd : p d with
    | false =>
      rw [subRunsAux_cons_keep rest b hpd] at h
      rcases List.mem_cons.mp h with h | h
      · exact Or.inr ⟨h ▸ List.mem_cons_self d rest, h ▸ hpd⟩
      · rcases ih h with h' | ⟨hm, hp⟩
        · exact Or.inl h'
        · exact Or.inr ⟨List.mem_cons_of_mem d hm, hp⟩
    | true =>
      cases b with
      | true =>
        rw [subRunsAux_cons_run rest hpd] at h
        rcases ih h with h' | ⟨hm, hp⟩
        · exact Or.inl h'
        · exact Or.inr ⟨List.mem_cons_of_mem d hm, hp⟩
      | false =>
        rw [subRunsAux_cons_start rest hpd] at h
        rcases List.mem_cons.mp h with h | h
        · exact Or.inl h
        · rcases ih h with h' | ⟨hm, hp⟩
          · exact Or.inl h'
          · exact Or.inr ⟨List.mem_cons_of_mem d hm, hp⟩

/-- Inside a run (`inRun = true`), the first emitted character never
matches `p`. -/
theorem head_subRunsAux_true {p : Char → Bool} :
    ∀ {l : List Char} {c : Char},
      (subRunsAux p true l).head? = some c → p c = false := by
  intro l
  induction l with
  | nil => intro c h; rw [subRunsAux_nil] at h; simp at h
  | cons d rest ih =>
    intro c h
    cases hpd : p d with
    | false =>
      rw [subRunsAux_cons_keep rest true hpd] at h
      simp only [List.head?_cons, Option.some.injEq] at h
      exact h ▸ hpd
    | true =>
      rw [subRunsAux_cons_run rest hpd] at h
      exact ih h

/-- The relation `no two adjacent characters both match p`. -/
def NotBothP (p : Char → Bool) (a b : Char) : Prop := p a = false ∨ p b = false

/-- After run substitution, no two adjacent characters match `p`. -/
theorem chain_subRunsAux (p : Char → Bool) :
    ∀ (l : List Char) (b : Bool), List.Chain' (NotBothP p) (subRunsAux p b l) := by
  intro l
  induction l with
  | nil => intro b; rw [subRunsAux_nil]; exact List.chain'_nil
  | cons d rest ih =>
    intro b
    cases hpd : p d with
    | false =>
      rw [subRunsAux_cons_keep rest b hpd]
      exact List.chain'_cons'.mpr ⟨fun _ _ => Or.inl hpd, ih false⟩
    | true =>
      cases b with
      | true => rw [subRunsAux_cons_run rest hpd]; exact ih true
      | false =>
        rw [subRunsAux_cons_start rest hpd]
        refine List.chain'_cons'.mpr ⟨fun c hc => Or.inr ?_, ih true⟩
        exact head_subRunsAux_true hc

/-- Run substitution is the identity when no character matches `p`. -/
theorem subRunsAux_id_of_none {p : Char → Bool} :
    ∀ {l : List Char}, (∀ c ∈ l, p c = false) → ∀ b, subRunsAux p b l = l := by
  intro l
  induction l with
  | nil => intro _ b; exact subRunsAux_nil p b
  | cons d rest ih =>
    intro h b
    have hpd : p d = false := h d (List.mem_cons_self d rest)
    rw [subRunsAux_cons_keep rest b hpd]
    rw [ih (fun c hc => h c (List.mem_cons_of_mem d hc)) false]

/-- When the head does not match `p`, the `inRun` flag is irrelevant. -/
theorem subRunsAux_true_eq_false {p : Char → Bool} {l : List Char}
    (h : ∀ c, l.head? = some c → p c = false) :
    subRunsAux p true l = subRunsAux p false l := by
  cases l with
  | nil => rfl
  | cons d rest =>
    have hpd : p d = false := h d rfl
    rw [subRunsAux_cons_keep rest true hpd, subRunsAux_cons_keep rest false hpd]

/-- Run substitution is the identity on a list whose only `p`-characters
are single interior spaces. -/
theorem subRunsAux_id {p : Char → Bool} :
    ∀ {l : List Char}, (∀ c ∈ l, p c = true → c = ' ') →
      List.Chain' (NotBothP p) l → subRunsAux p false l = l := by
  intro l
  induction l with
  | nil => intro _ _; rfl
  | cons d rest ih =>
    intro hsp hch
    have hch' := List.chain'_cons'.mp hch
    cases hpd : p d with
    | false =>
      rw [subRunsAux_cons_keep rest false hpd]
      rw [ih (fun c hc hp => hsp c (List.mem_cons_of_mem d hc) hp) hch'.2]
    | true =>
      have hd : d = ' ' := hsp d (List.mem_cons_self d rest) hpd
      rw [subRunsAux_cons_start rest hpd]
      have hhead : ∀ c, rest.head? = some c → p c = false := by
        intro c hc
        rcases hch'.1 c hc with h | h
        · exact absurd hpd (by simp [h])
        · exact h
      rw [subRunsAux_true_eq_false hhead]
      rw [ih (fun c hc hp => hsp c (List.mem_cons_of_mem d hc) hp) hch'.2, hd]

/-- The head of `dropWhile p` never matches `p`. -/
theorem head_dropWhile {p : Char → Bool} :
    ∀ {l : List Char} {c : Char}, (l.dropWhile p).head? = some c → p c = false := by
  intro l
  induction l with
  | nil => intro c h; simp [List.dropWhile] at h
  | cons d rest ih =>
    intro c h
    cases hpd : p d with
    | false =>
      rw [List.dropWhile_cons, hpd] at h
      simp only [if_false, Bool.false_eq_true, List.head?_cons,
        Option.some.injEq] at h
      exact h ▸ hpd
    | true =>
      rw [List.dropWhile_cons, hpd] at h
      simp only [if_pos rfl, if_true] at h
      exact ih h

/-- `dropWhile p` is the identity when the head does not match `p`. -/
theorem dropWhile_eq_self_of_head {p : Char → Bool} {l : List Char}
    (h : ∀ c, l.head? = some c → p c = false) : l.dropWhile p = l := by
  cases l with
  | nil => rfl
  | cons d rest => rw [List.dropWhile_cons, h d rfl]; simp

/-- `rstripPy p l` is an initial segment of `l`. -/
theorem rstripPy_append (p : Char → Bool) :
    ∀ l : List Char, ∃ t, rstripPy p l ++ t = l := by
  intro l
  induction l with
  | nil => exact ⟨[], rfl⟩
  | cons d rest ih =>
    rw [rstripPy]
    by_cases hc : (rstripPy p rest).isEmpty && p d
    · exact ⟨d :: rest, by simp [hc]⟩
    · obtain ⟨t, ht⟩ := ih
      exact ⟨t, by simp only [if_neg hc, List.cons_append, ht]⟩

/-- The last character of `rstripPy p l` never matches `p`. -/
theorem getLast?_rstripPy {p : Char → Bool} :
    ∀ {l : List Char} {c : Char},
      (rstripPy p l).getLast? = some c → p c = false := by
  intro l
  induction l with
  | nil => intro c h; simp [rstripPy] at h
  | cons d rest ih =>
    intro c h
    rw [rstripPy] at h
    by_cases hc : (rstripPy p rest).isEmpty && p d
    · simp only [if_pos hc, List.getLast?_nil] at h
      exact absurd h (by simp)
    · simp only [if_neg hc] at h
      cases hr : rstripPy p rest with
      | nil =>
        rw [hr] at h hc
        simp only [List.getLast?_singleton, Option.some.injEq] at h
        subst h
        simpa [List.isEmpty_nil] using hc
      | cons e r =>
        rw [hr] at h
        rw [List.getLast?_cons_cons] at h
        exact ih (hr ▸ h)

/-- `rstripPy p` is the identity when the last character does not match `p`. -/
theorem rstripPy_eq_self {p : Char → Bool} :
    ∀ {l : List Char}, (∀ c, l.getLast? = some c → p c = false) →
      rstripPy p l = l := by
  intro l
  induction l with
  | nil => intro _; rfl
  | cons d rest ih =>
    intro h
    rw [rstripPy]
    cases rest with
    | nil =>
      have : p d = false := h d rfl
      simp [rstripPy, this]
    | cons e r =>
      have hrest : rstripPy p (e :: r) = e :: r :=
        ih (fun c hc => h c (by rw [List.getLast?_cons_cons]; exact hc))
      rw [hrest]
      simp [List.isEmpty_cons]

/-- `stripPy` only keeps characters of the original list. -/
theorem mem_stripPy {p : Char → Bool} {l : List Char} {c : Char}
    (h : c ∈ stripPy p l) : c ∈ l := by
  obtain ⟨t, ht⟩ := rstripPy_append p (l.dropWhile p)
  rw [stripPy] at h
  have h1 : c ∈ l.dropWhile p := ht ▸ List.mem_append_left t h
  have h2 := List.takeWhile_append_dropWhile (p := p) (l := l)
  rw [← h2]
  exact List.mem_append_right _ h1

/-- `stripPy` preserves the no-adjacent-matches property. -/
theorem chain_stripPy {p : Char → Bool} {l : List Char}
    (h : List.Chain' (NotBothP p) l) :
    List.Chain' (NotBothP p) (stripPy p l) := by
  have h1 : List.Chain' (NotBothP p) (l.dropWhile p) := by
    have h2 := h
    rw [← List.takeWhile_append_dropWhile (p := p) (l := l)] at h2
    exact h2.right_of_append
  obtain ⟨t, ht⟩ := rstripPy_append p (l.dropWhile p)
  rw [stripPy]
  rw [← ht] at h1
  exact h1.left_of_append

/-- The head of a stripped list does not match `p`. -/
theorem head_stripPy {p : Char → Bool} {l : List Char} {c : Char}
    (h : (stripPy p l).head? = some c) : p c = false := by
  rw [stripPy] at h
  obtain ⟨t, ht⟩ := rstripPy_append p (l.dropWhile p)
  cases hr : rstripPy p (l.dropWhile p) with
  | nil => rw [hr] at h; simp at h
  | cons x xs =>
    rw [hr] at h ht
    simp only [List.head?_cons, Option.some.injEq] at h
    have hx : (l.dropWhile p).head? = some x := by rw [← ht]; rfl
    rw [← h]
    exact head_dropWhile hx

/-- The last character of a stripped list does not match `p`. -/
theorem last_stripPy {p : Char → Bool} {l : List Char} {c : Char}
    (h : (stripPy p l).getLast? = some c) : p c = false := by
  rw [stripPy] at h
  exact getLast?_rstripPy h

/-! ### Character-class facts -/

theorem keepChar_not_upper {c : Char} (h : keepChar c = true) :
    isUpperAZ c = false := by
  simp only [keepChar, isLowerAZ, isDigit09, Bool.or_eq_true, Bool.and_eq_true,
    decide_eq_true_eq] at h
  simp only [isUpperAZ, Bool.and_eq_false_iff, decide_eq_false_iff_not]
  omega

theorem keepChar_not_dash {c : Char} (h : keepChar c = true) :
    isDashUnd c = false := by
  simp only [keepChar, isLowerAZ, isDigit09, Bool.or_eq_true, Bool.and_eq_true,
    decide_eq_true_eq] at h
  simp only [isDashUnd, Bool.or_eq_false_iff, decide_eq_false_iff_not]
  omega

theorem keepChar_not_space {c : Char} (h : keepChar c = true) :
    isSpacePy c = false := by
  simp only [keepChar, isLowerAZ, isDigit09, Bool.or_eq_true, Bool.and_eq_true,
    decide_eq_true_eq] at h
  simp only [isSpacePy, Bool.or_eq_false_iff, decide_eq_false_iff_not]
  omega

theorem toLowerPy_eq_self {c : Char} (h : keepChar c = true ∨ c = ' ') :
    toLowerPy c = c := by
  rcases h with h | h
  · rw [toLowerPy, keepChar_not_upper h]; simp
  · subst h; decide

theorem subSpecial_eq_self {c : Char} (h : keepChar c = true ∨ c = ' ') :
    subSpecial c = c := by
  rcases h with h | h
  · rw [subSpecial, if_pos (by simp [h])]
  · subst h; decide

/-! ### The characters of a normalized song name -/

/-- Every character of `normalize_song_name l` is a lowercase alphanumeric
or a space. -/
theorem mem_normalize {l : List Char} {c : Char}
    (h : c ∈ normalize_song_name l) : keepChar c = true ∨ c = ' ' := by
  rw [normalize_song_name] at h
  by_cases hl : l = []
  · rw [if_pos hl] at h; simp at h
  · rw [if_neg hl] at h
    have h4 := mem_stripPy h
    rw [subRuns] at h4
    rcases mem_subRunsAux h4 with hc | ⟨h3, hsp⟩
    · exact Or.inr hc
    · rcases List.mem_map.mp h3 with ⟨d, _, hd⟩
      by_cases hk : (keepChar d || isSpacePy d) = true
      · rw [subSpecial, if_pos hk] at hd
        subst hd
        rcases (by simpa using hk : keepChar d = true ∨ isSpacePy d = true) with h' | h'
        · exact Or.inl h'
        · exact absurd hsp (by simp [h'])
      · rw [subSpecial, if_neg hk] at hd
        exact Or.inr hd.symm

/-- A normalized song name has no two adjacent whitespace characters. -/
theorem chain_normalize (l : List Char) :
    List.Chain' (NotBothP isSpacePy) (normalize_song_name l) := by
  rw [normalize_song_name]
  by_cases hl : l = []
  · rw [if_pos hl]; exact List.chain'_nil
  · rw [if_neg hl]
    exact chain_stripPy (by rw [subRuns]; exact chain_subRunsAux _ _ _)

/-- A normalized song name does not start with whitespace. -/
theorem head_normalize {l : List Char} {c : Char}
    (h : (normalize_song_name l).head? = some c) : isSpacePy c = false := by
  rw [normalize_song_name] at h
  by_cases hl : l = []
  · rw [if_pos hl] at h; simp at h
  · rw [if_neg hl] at h
    exact head_stripPy h

/-- A normalized song name does not end with whitespace. -/
theorem last_normalize {l : List Char} {c : Char}
    (h : (normalize_song_name l).getLast? = some c) : isSpacePy c = false := by
  rw [normalize_song_name] at h
  by_cases hl : l = []
  · rw [if_pos hl] at h; simp at h
  · rw [if_neg hl] at h
    exact last_stripPy h

/-- C9: `normalize_song_name` is idempotent: normalizing an already
normalized song name returns it unchanged, since the output consists only
of lowercase alphanumerics and single interior spaces with no leading or
trailing whitespace. -/
theorem claim_C9_normalize_song_name_idempotent (l : List Char) :
    normalize_song_name (normalize_song_name l) = normalize_song_name l := by
  by_cases hnil : normalize_song_name l = []
  · rw [hnil, normalize_song_name, if_pos rfl]
  · have hchars : ∀ c ∈ normalize_song_name l, keepChar c = true ∨ c = ' ' :=
      fun c hc => mem_normalize hc
    have hchain := chain_normalize l
    conv_lhs => rw [normalize_song_name]
    rw [if_neg hnil]
    have s1 : (normalize_song_name l).map toLowerPy = normalize_song_name l :=
      (List.map_congr_left
        (fun c hc => toLowerPy_eq_self (hchars c hc))).trans (List.map_id _)
    rw [s1]
    have s2 : subRuns isDashUnd (normalize_song_name l) = normalize_song_name l := by
      rw [subRuns]
      exact subRunsAux_id_of_none (fun c hc => by
        rcases hchars c hc with h | h
        · exact keepChar_not_dash h
        · subst h; decide) false
    rw [s2]
    have s3 : (normalize_song_name l).map subSpecial = normalize_song_name l :=
      (List.map_congr_left
        (fun c hc => subSpecial_eq_self (hchars c hc))).trans (List.map_id _)
    rw [s3]
    have s4 : subRuns isSpacePy (normalize_song_name l) = normalize_song_name l := by
      rw [subRuns]
      exact subRunsAux_id (fun c hc hp => by
        rcases hchars c hc with h | h
        · exact absurd hp (by simp [keepChar_not_space h])
        · exact h) hchain
    rw [s4]
    have s5a : (normalize_song_name l).dropWhile isSpacePy = normalize_song_name l :=
      dropWhile_eq_self_of_head (fun c hc => head_normalize hc)
    have s5b : rstripPy isSpacePy (normalize_song_name l) = normalize_song_name l :=
      rstripPy_eq_self (fun c hc => last_normalize hc)
    rw [stripPy, s5a, s5b]

/-! ## `calculate_accuracy_metrics` (src/scripts/calculate_accuracy.py, lines 151-282)

A parsed result file is the output of `load_results_csv`: the query name
and the list of `(rank, filename, ncd_score)` rows. -/

/-- One parsed row of a `*_results.csv` file. -/
structure ResultRow where
  rank : ℤ
  filename : List Char
  ncd : ℚ
deriving DecidableEq

/-- One parsed result file: `load_results_csv` returns the query name and
the result rows. -/
structure ParsedFile where
  queryName : List Char
  results : List ResultRow
deriving DecidableEq

/-- Ground truth extracted from the query name:
`normalize_song_name(extract_song_name(query_name))`. -/
def groundTruthOf (q : List Char) : List Char :=
  normalize_song_name (extract_song_name q)

/-- The loop over `results[:10]`: the rank of the first result whose
normalized extracted name fuzzy-matches the ground truth. -/
def foundAtRank (gt : List Char) (results : List ResultRow) : Option ℤ :=
  ((results.take 10).find? (fun r =>
    fuzzy_match gt (normalize_song_name (extract_song_name r.filename)))).map
    (fun r => r.rank)

/-- The four running counters of `calculate_accuracy_metrics`. -/
structure Metrics where
  total : ℕ
  top1 : ℕ
  top5 : ℕ
  top10 : ℕ
deriving DecidableEq

/-- Processing of a single result file inside the main loop: files with no
results or an empty ground truth are skipped, otherwise the query counts
and, when a match was found in the top 10, each counter whose rank bound
covers the match rank is incremented. -/
def stepMetrics (m : Metrics) (f : ParsedFile) : Metrics :=
  if f.results = [] then m
  else if groundTruthOf f.queryName = [] then m
  else
    let m1 : Metrics := { m with total := m.total + 1 }
    match foundAtRank (groundTruthOf f.queryName) f.results with
    | none => m1
    | some r =>
      let m2 := if r ≤ 1 then { m1 with top1 := m1.top1 + 1 } else m1
      let m3 := if r ≤ 5 then { m2 with top5 := m2.top5 + 1 } else m2
      if r ≤ 10 then { m3 with top10 := m3.top10 + 1 } else m3

/-- The counter totals over all parsed result files. -/
def calculate_accuracy_counts (files : List ParsedFile) : Metrics :=
  files.foldl stepMetrics ⟨0, 0, 0, 0⟩

/-- The summary dictionary built at the end of
`calculate_accuracy_metrics`; `none` models the `total_queries == 0` error
path, which returns `None`. -/
structure AccuracySummary where
  total_queries : ℕ
  top1_correct : ℕ
  top5_correct : ℕ
  top10_correct : ℕ
  top1_accuracy : ℚ
  top5_accuracy : ℚ
  top10_accuracy : ℚ
deriving DecidableEq

/-- `calculate_accuracy_metrics` over a list of parsed result files. -/
def calculate_accuracy_metrics (files : List ParsedFile) : Option AccuracySummary :=
  let m := calculate_accuracy_counts files
  if m.total = 0 then none
  else some {
    total_queries := m.total
    top1_correct := m.top1
    top5_correct := m.top5
    top10_correct := m.top10
    top1_accuracy := ((m.top1 : ℚ) / (m.total : ℚ)) * 100
    top5_accuracy := ((m.top5 : ℚ) / (m.total : ℚ)) * 100
    top10_accuracy := ((m.top10 : ℚ) / (m.total : ℚ)) * 100 }

/-- One step of the metrics loop preserves `top1 ≤ top5 ≤ top10`. -/
theorem stepMetrics_mono (m : Metrics) (f : ParsedFile)
    (h : m.top1 ≤ m.top5 ∧ m.top5 ≤ m.top10) :
    (stepMetrics m f).top1 ≤ (stepMetrics m f).top5 ∧
    (stepMetrics m f).top5 ≤ (stepMetrics m f).top10 := by
  rw [stepMetrics]
  by_cases h1 : f.results = []
  · rw [if_pos h1]; exact h
  · rw [if_neg h1]
    by_cases h2 : groundTruthOf f.queryName = []
    · rw [if_pos h2]; exact h
    · rw [if_neg h2]
      cases hF : foundAtRank (groundTruthOf f.queryName) f.results with
      | none => exact h
      | some r =>
        by_cases hr1 : r ≤ 1
        · have hr5 : r ≤ 5 := le_trans hr1 (by norm_num)
          have hr10 : r ≤ 10 := le_trans hr1 (by norm_num)
          simp only [if_pos hr1, if_pos hr5, if_pos hr10]
          exact ⟨Nat.succ_le_succ h.1, Nat.succ_le_succ h.2⟩
        · by_cases hr5 : r ≤ 5
          · have hr10 : r ≤ 10 := le_trans hr5 (by norm_num)
            simp only [if_neg hr1, if_pos hr5, if_pos hr10]
            exact ⟨Nat.le_succ_of_le h.1, Nat.succ_le_succ h.2⟩
          · by_cases hr10 : r ≤ 10
            · simp only [if_neg hr1, if_neg hr5, if_pos hr10]
              exact ⟨h.1, Nat.le_succ_of_le h.2⟩
            · simp only [if_neg hr1, if_neg hr5, if_neg hr10]
              exact h

/-- The counter invariant holds after any number of steps. -/
theorem foldl_stepMetrics_mono (files : List ParsedFile) :
    ∀ m : Metrics, m.top1 ≤ m.top5 ∧ m.top5 ≤ m.top10 →
      (files.foldl stepMetrics m).top1 ≤ (files.foldl stepMetrics m).top5 ∧
      (files.foldl stepMetrics m).top5 ≤ (files.foldl stepMetrics m).top10 := by
  induction files with
  | nil => intro m h; exact h
  | cons f rest ih =>
    intro m h
    exact ih (stepMetrics m f) (stepMetrics_mono m f h)

/-- C1: for every run of `calculate_accuracy_metrics` over any list of
parsed result files, `top1_correct ≤ top5_correct ≤ top10_correct`, and
hence `top1_accuracy ≤ top5_accuracy ≤ top10_accuracy` in the returned
summary: a match at rank ≤ 1 also increments the top-5 and top-10
counters, and a match at rank ≤ 5 also increments the top-10 counter. -/
theorem claim_C1_topk_accuracy_monotone (files : List ParsedFile) :
    (calculate_accuracy_counts files).top1 ≤ (calculate_accuracy_counts files).top5 ∧
    (calculate_accuracy_counts files).top5 ≤ (calculate_accuracy_counts files).top10 ∧
    ∀ s, calculate_accuracy_metrics files = some s →
      s.top1_accuracy ≤ s.top5_accuracy ∧ s.top5_accuracy ≤ s.top10_accuracy := by
  have hc := foldl_stepMetrics_mono files ⟨0, 0, 0, 0⟩ ⟨le_refl 0, le_refl 0⟩
  refine ⟨hc.1, hc.2, ?_⟩
  intro s hs
  rw [calculate_accuracy_metrics] at hs
  by_cases h0 : (calculate_accuracy_counts files).total = 0
  · rw [if_pos h0] at hs; exact absurd hs (by simp)
  · rw [if_neg h0] at hs
    have hpos : (0 : ℚ) < ((calculate_accuracy_counts files).total : ℚ) := by
      exact_mod_cast Nat.pos_of_ne_zero h0
    have key : ∀ a b : ℕ, a ≤ b →
        ((a : ℚ) / ((calculate_accuracy_counts files).total : ℚ)) * 100 ≤
        ((b : ℚ) / ((calculate_accuracy_counts files).total : ℚ)) * 100 := by
      intro a b hab
      have : (a : ℚ) ≤ (b : ℚ) := by exact_mod_cast hab
      exact mul_le_mul_of_nonneg_right
        ((div_le_div_iff_of_pos_right hpos).mpr this) (by norm_num)
    have h1 := key _ _ hc.1
    have h2 := key _ _ hc.2
    cases hs
    exact ⟨h1, h2⟩

/-- A concrete one-file input for the accuracy pipeline. -/
def demoAccuracyFiles : List ParsedFile :=
  [⟨"sample_song_a.wav".toList,
    [⟨1, "song_a.wav".toList, 1/2⟩, ⟨2, "song_b.wav".toList, 3/5⟩]⟩]

/-- The summary computed for `demoAccuracyFiles`. -/
def demoAccuracySummary : AccuracySummary := ⟨1, 1, 1, 1, 100, 100, 100⟩

/-- Witness for C1: the accuracy ordering, instantiated on a concrete
parsed result file whose summary evaluates concretely. -/
theorem claim_C1_topk_accuracy_monotone_witness :
    calculate_accuracy_metrics demoAccuracyFiles = some demoAccuracySummary ∧
    (demoAccuracySummary.top1_accuracy ≤ demoAccuracySummary.top5_accuracy ∧
     demoAccuracySummary.top5_accuracy ≤ demoAccuracySummary.top10_accuracy) := by
  have hcounts : calculate_accuracy_counts demoAccuracyFiles = ⟨1, 1, 1, 1⟩ := by
    decide
  have heq : calculate_accuracy_metrics demoAccuracyFiles = some demoAccuracySummary := by
    simp only [calculate_accuracy_metrics, hcounts]
    norm_num [demoAccuracySummary]
  exact ⟨heq, (claim_C1_topk_accuracy_monotone demoAccuracyFiles).2.2
    demoAccuracySummary heq⟩

/-! ## `load_data` (src/generate_plots/plots.py, lines 10-26)

A row of the input CSV `test_results.csv`. `pd.to_numeric(..,
errors="coerce")` turns unparsable entries into NaN, modelled as `none`. -/

/-- One row of the CSV table read by `load_data`. -/
structure CsvRow where
  alpha : ℚ
  k : ℤ
  recursiveStep : ℤ
  avgInfoContent : Option ℚ
  execTime : Option ℚ
  modelSize : Option ℚ
  file : List Char
  modelType : List Char
deriving DecidableEq

/-- `os.path.splitext(b)[0]`: cut at the last dot of `b` that comes after
the leading run of dots. -/
def osSplitextRoot (b : List Char) : List Char :=
  let lead := (b.takeWhile (fun c => c == '.')).length
  match ((List.range b.length).filter
      (fun i => decide (lead ≤ i) && (b.get? i == some '.'))).getLast? with
  | some i => b.take i
  | none => b

/-- The transform applied to the `File` column:
`os.path.splitext(os.path.basename(x))[0]`. -/
def fileKey (x : List Char) : List Char := osSplitextRoot (pyBasename x)

/-- The column transforms of `load_data` that precede the zero-size filter
(lines 13-21): the `File` values are reduced to their base name without
extension. -/
def mappedRows (rows : List CsvRow) : List CsvRow :=
  rows.map (fun r => { r with file := fileKey r.file })

/-- `load_data`: after the column transforms, every `File` that has some
row with `ModelSize == 0` is dropped
(`df = df[~df["File"].isin(files_to_remove)]`). -/
def load_data (rows : List CsvRow) : List CsvRow :=
  let rows2 := mappedRows rows
  let filesToRemove :=
    ((rows2.filter (fun r => r.modelSize == some 0)).map (fun r => r.file)).dedup
  rows2.filter (fun r => decide (r.file ∉ filesToRemove))

/-- C2: if any (transformed) row has `ModelSize == 0`, then no row with
that row's `File` value survives `load_data`, so the file is absent from
every aggregate computed downstream of `load_data`. -/
theorem claim_C2_zero_modelsize_excluded (rows : List CsvRow) (r0 : CsvRow)
    (h0 : r0 ∈ mappedRows rows) (hz : r0.modelSize = some 0) :
    ∀ r ∈ load_data rows, r.file ≠ r0.file := by
  intro r hr heq
  rw [load_data] at hr
  have hmem := List.mem_filter.mp hr
  have hremove : r0.file ∈
      (((mappedRows rows).filter (fun r => r.modelSize == some 0)).map
        (fun r => r.file)).dedup := by
    rw [List.mem_dedup]
    exact List.mem_map.mpr ⟨r0, List.mem_filter.mpr ⟨h0, by simp [hz]⟩, rfl⟩
  have hcontains := of_decide_eq_true hmem.2
  rw [heq] at hcontains
  exact hcontains hremove

/-- A concrete table for C2: two rows of the same file, one with model
size zero, plus a healthy row of another file. -/
def demoCsvRows : List CsvRow :=
  [⟨1, 2, 0, some 1, some 5, some 0, "data/seq1.fa".toList, "JSON".toList⟩,
   ⟨1, 3, 0, some 2, some 6, some 7, "data/seq1.fa".toList, "JSON".toList⟩,
   ⟨1, 2, 0, some 3, some 7, some 9, "data/seq2.fa".toList, "BSON".toList⟩]

/-- The first row of `demoCsvRows` after the `File` transform; its model
size is zero. -/
def demoZeroRow : CsvRow :=
  ⟨1, 2, 0, some 1, some 5, some 0, "seq1".toList, "JSON".toList⟩

/-- Witness for C2 on `demoCsvRows`: the zero-size row is in the mapped
table and every surviving row avoids its file. -/
theorem claim_C2_zero_modelsize_excluded_witness :
    demoZeroRow ∈ mappedRows demoCsvRows ∧ demoZeroRow.modelSize = some 0 ∧
    ∀ r ∈ load_data demoCsvRows, r.file ≠ demoZeroRow.file :=
  ⟨by decide, by decide,
   claim_C2_zero_modelsize_excluded demoCsvRows demoZeroRow
     (by decide) (by decide)⟩

/-! ## `process_data` (src/visualization/data_handler.py, lines 39-74 and
src/visualize_results.py, lines 49-84)

The JSON results file is a list of experiments, each with parameters and a
list of ranked reference organisms. -/

/-- One entry of an experiment's `references` array. -/
structure RefEntry where
  name : List Char
  kld : ℚ
  nrc : ℚ
  rank : ℤ
deriving DecidableEq

/-- One experiment object of the JSON results file. -/
structure Experiment where
  alpha : ℚ
  k : ℤ
  execTime_ms : ℚ
  references : List RefEntry
deriving DecidableEq

/-- One row of the DataFrame built by `process_data`. -/
structure NrcRow where
  alpha : ℚ
  k : ℤ
  execTime_ms : ℚ
  name : List Char
  short_name : List Char
  kld : ℚ
  nrc : ℚ
  rank : ℤ
deriving DecidableEq

/-- The display short name computed inside `process_data`: third (or
first) `|`-separated field, or the first two space-separated words. -/
def shortNameOf (full : List Char) : List Char :=
  if full.contains '|' then
    let parts := full.splitOn '|'
    if 3 ≤ parts.length then stripPy isSpacePy (parts.getD 2 [])
    else stripPy isSpacePy (parts.getD 0 [])
  else
    let nameParts := full.splitOn ' '
    if 2 < nameParts.length then List.intercalate [' '] (nameParts.take 2)
    else full

/-- `process_data`: flatten the experiments into one row per reference. -/
def process_data (data : List Experiment) : List NrcRow :=
  data.flatMap (fun e => e.references.map (fun ref =>
    { alpha := e.alpha, k := e.k, execTime_ms := e.execTime_ms,
      name := ref.name, short_name := shortNameOf ref.name,
      kld := ref.kld, nrc := ref.nrc, rank := ref.rank }))

/-! ## `plot_rank_stability` (src/visualize_results.py, lines 257-326 and
src/visualization/plot_nrc.py, lines 73-142) -/

/-- `sorted(df['k'].unique())`. -/
def uniqueKs (df : List NrcRow) : List ℤ :=
  List.insertionSort (· ≤ ·) (df.map (fun r => r.k)).dedup

/-- `sorted(df['alpha'].unique())`. -/
def uniqueAlphas (df : List NrcRow) : List ℚ :=
  List.insertionSort (· ≤ ·) (df.map (fun r => r.alpha)).dedup

/-- The score of an organism: the sum of all its rank values
(`organism_data['rank'].sum()`). -/
def organismScore (df : List NrcRow) (name : List Char) : ℤ :=
  ((df.filter (fun r => r.name == name)).map (fun r => r.rank)).sum

/-- The ten organisms with lowest score among those appearing with rank at
most 5, in score order (Python's stable `sorted` on the counter keys). -/
def commonTopOrganisms (df : List NrcRow) : List (List Char) :=
  let names := ((df.filter (fun r => decide (r.rank ≤ 5))).map (fun r => r.name)).dedup
  let scored := names.map (fun n => (n, organismScore df n))
  ((List.insertionSort (fun p q => p.2 ≤ q.2) scored).take 10).map (fun p => p.1)

/-- One heatmap row of `plot_rank_stability`: for each `(k, alpha)`
combination (columns in `k`-major order), the rank of the first matching
row, or `none` (rendered NaN) when the organism has no row there. -/
def rankMatrixRow (df : List NrcRow) (name : List Char) : List (Option ℤ) :=
  (uniqueKs df).flatMap (fun k =>
    (uniqueAlphas df).map (fun a =>
      ((df.filter (fun r => r.name == name && r.k == k && r.alpha == a)).head?).map
        (fun r => r.rank)))

theorem length_bind_const {α β : Type} (l : List α) (f : α → List β) (n : ℕ)
    (h : ∀ a ∈ l, (f a).length = n) : (l.flatMap f).length = l.length * n := by
  induction l with
  | nil => simp
  | cons a t ih =>
    rw [List.flatMap_cons, List.length_append, h a (List.mem_cons_self a t),
      ih (fun b hb => h b (List.mem_cons_of_mem a hb)), List.length_cons,
      Nat.succ_mul, Nat.add_comm]

/-- The two-row example of the claim: organism X at k = 5 with
(alpha, nrc, rank) = (0.1, 0.30, 1) and (0.2, 0.32, 2). -/
def demoRowX1 : NrcRow :=
  ⟨⟨1, 10, by decide, by decide⟩, 5, 100, "X".toList, "X".toList, 0,
    ⟨3, 10, by decide, by decide⟩, 1⟩

/-- Second row of the example. -/
def demoRowX2 : NrcRow :=
  ⟨⟨1, 5, by decide, by decide⟩, 5, 100, "X".toList, "X".toList, 0,
    ⟨8, 25, by decide, by decide⟩, 2⟩

/-- The two-row example DataFrame. -/
def demoNrcDf : List NrcRow := [demoRowX1, demoRowX2]

/-- C3: the rank-stability aggregate gives every organism one heatmap
entry per `(k, alpha)` combination, and on the two-row example
`{(k=5, α=0.1, nrc=0.30, rank=1), (k=5, α=0.2, nrc=0.32, rank=2)}` it
assigns organism X the score `1 + 2 = 3` and the heatmap row
`[rank 1 at (5, 0.1), rank 2 at (5, 0.2)]`. -/
theorem claim_C3_rank_stability_aggregate :
    (∀ (df : List NrcRow) (name : List Char),
      (rankMatrixRow df name).length =
        (uniqueKs df).length * (uniqueAlphas df).length) ∧
    organismScore demoNrcDf ("X".toList) = 3 ∧
    "X".toList ∈ commonTopOrganisms demoNrcDf ∧
    uniqueKs demoNrcDf = [5] ∧
    uniqueAlphas demoNrcDf = [demoRowX1.alpha, demoRowX2.alpha] ∧
    rankMatrixRow demoNrcDf ("X".toList) = [some 1, some 2] := by
  refine ⟨?_, by decide, by decide, by decide, by decide, by decide⟩
  intro df name
  rw [rankMatrixRow]
  exact length_bind_const _ _ _ (fun k _ => List.length_map _ _)

/-! ## `track_outliers` (src/visualize_results.py, lines 409-496 and
src/visualization/plot_nrc.py, lines 225-312) -/

/-- pandas `Series.quantile(q)` with the default linear interpolation:
with the values sorted as `s` and `h = q * (n - 1)`, the result is
`s[⌊h⌋] + (h - ⌊h⌋) * (s[⌊h⌋ + 1] - s[⌊h⌋])`. -/
def quantileLinear (q : ℚ) (l : List ℚ) : ℚ :=
  let s := List.insertionSort (· ≤ ·) l
  let h : ℚ := q * ((s.length : ℚ) - 1)
  let i : ℕ := (⌊h⌋).toNat
  let lo := s.getD i 0
  let hi := s.getD (i + 1) lo
  lo + (h - (i : ℚ)) * (hi - lo)

/-- `df[df['k'] == k]`. -/
def kGroup (df : List NrcRow) (k : ℤ) : List NrcRow :=
  df.filter (fun r => r.k == k)

/-- `q1 - 1.5 * iqr` for the `k` group's nrc values. -/
def lowerBoundK (df : List NrcRow) (k : ℤ) : ℚ :=
  let nrcs := (kGroup df k).map (fun r => r.nrc)
  let q1 := quantileLinear (1/4) nrcs
  let q3 := quantileLinear (3/4) nrcs
  q1 - 3/2 * (q3 - q1)

/-- `q3 + 1.5 * iqr` for the `k` group's nrc values. -/
def upperBoundK (df : List NrcRow) (k : ℤ) : ℚ :=
  let nrcs := (kGroup df k).map (fun r => r.nrc)
  let q1 := quantileLinear (1/4) nrcs
  let q3 := quantileLinear (3/4) nrcs
  q3 + 3/2 * (q3 - q1)

/-- The outlier filter of `track_outliers` for one `k` group:
`k_data[(k_data['nrc'] < lower_bound) | (k_data['nrc'] > upper_bound)]`. -/
def outliersAtK (df : List NrcRow) (k : ℤ) : List NrcRow :=
  (kGroup df k).filter (fun r =>
    decide (r.nrc < lowerBoundK df k) || decide (upperBoundK df k < r.nrc))

/-- All outlier rows collected by `track_outliers` over the sorted unique
`k` values. -/
def trackOutliersRows (df : List NrcRow) : List NrcRow :=
  (uniqueKs df).flatMap (fun k => outliersAtK df k)

/-- C4: whenever every nrc value of a `k` group lies inside the closed
interval `[Q1 - 1.5·IQR, Q3 + 1.5·IQR]` of that group, the outlier filter
of `track_outliers` selects no rows for that group. -/
theorem claim_C4_no_outliers_within_bounds (df : List NrcRow) (k : ℤ)
    (h : ∀ r ∈ kGroup df k,
      lowerBoundK df k ≤ r.nrc ∧ r.nrc ≤ upperBoundK df k) :
    outliersAtK df k = [] := by
  rw [outliersAtK]
  rw [List.filter_eq_nil_iff]
  intro r hr
  rcases h r hr with ⟨hl, hu⟩
  simp only [Bool.or_eq_true, decide_eq_true_eq, not_or]
  exact ⟨not_lt.mpr hl, not_lt.mpr hu⟩

/-- A constant-valued group: three rows at `k = 5`, all with nrc 1. -/
def demoOutlierDf : List NrcRow :=
  [⟨1, 5, 100, "A".toList, "A".toList, 0, 1, 1⟩,
   ⟨2, 5, 100, "B".toList, "B".toList, 0, 1, 2⟩,
   ⟨3, 5, 100, "C".toList, "C".toList, 0, 1, 3⟩]

/-- Witness for C4: on the constant group, both quartiles are 1, every
value sits inside the bounds, and no outlier is flagged. -/
theorem claim_C4_no_outliers_within_bounds_witness :
    (∀ r ∈ kGroup demoOutlierDf 5,
      lowerBoundK demoOutlierDf 5 ≤ r.nrc ∧ r.nrc ≤ upperBoundK demoOutlierDf 5) ∧
    outliersAtK demoOutlierDf 5 = [] := by
  have hgroup : kGroup demoOutlierDf 5 = demoOutlierDf := by decide
  have hlb : lowerBoundK demoOutlierDf 5 = 1 := by
    rw [lowerBoundK, hgroup]
    norm_num [quantileLinear, demoOutlierDf, List.insertionSort, List.orderedInsert]
  have hub : upperBoundK demoOutlierDf 5 = 1 := by
    rw [upperBoundK, hgroup]
    norm_num [quantileLinear, demoOutlierDf, List.insertionSort, List.orderedInsert]
  have h : ∀ r ∈ kGroup demoOutlierDf 5,
      lowerBoundK demoOutlierDf 5 ≤ r.nrc ∧ r.nrc ≤ upperBoundK demoOutlierDf 5 := by
    rw [hgroup, hlb, hub]
    intro r hr
    fin_cases hr <;> exact ⟨le_refl _, le_refl _⟩
  exact ⟨h, claim_C4_no_outliers_within_bounds demoOutlierDf 5 h⟩

/-! ## Group-by aggregation (src/generate_plots/plots.py, lines 213-216
and 241-252)

`df.groupby(keys)[col].agg(...)` is modelled over rows reduced to
(group key, aggregated value) pairs; for the convergence heatmap the key
is the `(k, alpha)` pair, for `save_metrics` it is `RecursiveStep`. -/

/-- The values of one group: the aggregated column of the rows whose key
columns equal `key`. -/
def groupVals {K : Type} [DecidableEq K] (rows : List (K × ℚ)) (key : K) :
    List ℚ :=
  (rows.filter (fun p => decide (p.1 = key))).map (fun p => p.2)

/-- pandas `mean` of one group (NaN-free values): sum over count. -/
def groupMean {K : Type} [DecidableEq K] (rows : List (K × ℚ)) (key : K) : ℚ :=
  (groupVals rows key).sum / ((groupVals rows key).length : ℚ)

/-- pandas `Series.min`: `none` on an empty series. -/
def seriesMin (l : List ℚ) : Option ℚ :=
  l.foldl (fun acc v =>
    match acc with
    | none => some v
    | some m => some (min m v)) none

/-- pandas `Series.max`: `none` on an empty series. -/
def seriesMax (l : List ℚ) : Option ℚ :=
  l.foldl (fun acc v =>
    match acc with
    | none => some v
    | some m => some (max m v)) none

/-- pandas `min` of one group. -/
def groupMin {K : Type} [DecidableEq K] (rows : List (K × ℚ)) (key : K) :
    Option ℚ :=
  seriesMin (groupVals rows key)

/-- pandas `max` of one group. -/
def groupMax {K : Type} [DecidableEq K] (rows : List (K × ℚ)) (key : K) :
    Option ℚ :=
  seriesMax (groupVals rows key)

theorem groupVals_perm {K : Type} [DecidableEq K] {r1 r2 : List (K × ℚ)}
    (h : r1.Perm r2) (key : K) :
    (groupVals r1 key).Perm (groupVals r2 key) :=
  (h.filter _).map _

theorem seriesMin_perm {l1 l2 : List ℚ} (h : l1.Perm l2) :
    seriesMin l1 = seriesMin l2 := by
  apply h.foldl_eq'
  intro x _ y _ z
  cases z with
  | none => simp [min_comm]
  | some m => simp [min_right_comm]

theorem seriesMax_perm {l1 l2 : List ℚ} (h : l1.Perm l2) :
    seriesMax l1 = seriesMax l2 := by
  apply h.foldl_eq'
  intro x _ y _ z
  cases z with
  | none => simp [max_comm]
  | some m => simp [max_assoc, max_comm x y]

/-- C6: grouping by a key (such as `(k, alpha)`) and aggregating with
mean, min or max is invariant under any permutation of the input rows. -/
theorem claim_C6_groupby_order_invariant {K : Type} [DecidableEq K]
    (rows₁ rows₂ : List (K × ℚ)) (h : rows₁.Perm rows₂) (key : K) :
    groupMean rows₁ key = groupMean rows₂ key ∧
    groupMin rows₁ key = groupMin rows₂ key ∧
    groupMax rows₁ key = groupMax rows₂ key := by
  have hp := groupVals_perm h key
  refine ⟨?_, seriesMin_perm hp, seriesMax_perm hp⟩
  rw [groupMean, groupMean, hp.sum_eq, hp.length_eq]

/-- Concrete rows keyed by `(k, alpha)` for the C6 witness. -/
def demoGroupRows1 : List ((ℤ × ℚ) × ℚ) :=
  [((5, 1), 10), ((5, 1), 20), ((6, 1), 30)]

/-- A permutation of `demoGroupRows1`. -/
def demoGroupRows2 : List ((ℤ × ℚ) × ℚ) :=
  [((6, 1), 30), ((5, 1), 20), ((5, 1), 10)]

/-- Witness for C6: row order invariance at a concrete permuted table. -/
theorem claim_C6_groupby_order_invariant_witness :
    demoGroupRows1.Perm demoGroupRows2 ∧
    (groupMean demoGroupRows1 (5, 1) = groupMean demoGroupRows2 (5, 1) ∧
     groupMin demoGroupRows1 (5, 1) = groupMin demoGroupRows2 (5, 1) ∧
     groupMax demoGroupRows1 (5, 1) = groupMax demoGroupRows2 (5, 1)) :=
  ⟨by decide,
   claim_C6_groupby_order_invariant demoGroupRows1 demoGroupRows2 (by decide) (5, 1)⟩

/-! ## `ResultsAnalyzer` (src/scripts/generate_plots.py, lines 21-187)

The filesystem is abstracted as a function from combination keys to the
accuracy record of the backing `accuracy_metrics_*.json` file; `none`
models a file that is absent or cannot be read (both land in
`missing_combinations`). -/

/-- The key `(method, format_type, noise, compressor, dataset)` of
`load_all_data`. -/
structure ComboKey where
  method : String
  format : String
  noise : String
  compressor : String
  dataset : String
deriving DecidableEq

/-- `self.methods`. -/
def methods : List String := ["maxfreq", "spectral"]

/-- `self.formats`. -/
def formats : List String := ["text", "binary"]

/-- `self.noises`. -/
def noises : List String := ["clean", "brown", "pink", "white"]

/-- `self.compressors`. -/
def compressors : List String := ["gzip", "bzip2", "lzma", "zstd"]

/-- The accuracy record stored in one accuracy-metrics JSON file. -/
structure AccData where
  top1_accuracy : ℚ
  top5_accuracy : ℚ
  top10_accuracy : ℚ
deriving DecidableEq

/-- The metric name passed to `get_accuracy`. -/
inductive Metric
  | top1
  | top5
  | top10
deriving DecidableEq

/-- Selection of a metric from an accuracy record (`data.get(metric)`). -/
def AccData.metricVal : AccData → Metric → ℚ
  | d, .top1 => d.top1_accuracy
  | d, .top5 => d.top5_accuracy
  | d, .top10 => d.top10_accuracy

/-- The datasets iterated by `load_all_data`. -/
def datasetsOf (dataset : String) : List String :=
  if dataset = "both" then ["youtube", "small"] else [dataset]

/-- All combination keys visited by the `load_all_data` loops, in loop
order. -/
def allKeys (dataset : String) : List ComboKey :=
  (datasetsOf dataset).flatMap (fun ds =>
    methods.flatMap (fun m =>
      formats.flatMap (fun f =>
        noises.flatMap (fun n =>
          compressors.map (fun c => ⟨m, f, n, c, ds⟩)))))

/-- `self.data` after `load_all_data`: a key maps to its record exactly
when it was visited and its file loaded. -/
def loadedData (fs : ComboKey → Option AccData) (dataset : String) :
    ComboKey → Option AccData :=
  fun key => if key ∈ allKeys dataset then fs key else none

/-- The `missing_combinations` tally of `load_all_data`. -/
def missingCombinations (fs : ComboKey → Option AccData) (dataset : String) :
    List ComboKey :=
  (allKeys dataset).filter (fun key => (fs key).isNone)

/-- `get_accuracy`: for `'both'`, average (or take) whichever dataset has
data; for a single dataset, look the key up in `self.data`. -/
def get_accuracy (fs : ComboKey → Option AccData) (dataset : String)
    (m f n c : String) (metric : Metric) : Option ℚ :=
  if dataset = "both" then
    let y := (loadedData fs dataset ⟨m, f, n, c, "youtube"⟩).map
      (fun d => d.metricVal metric)
    let s := (loadedData fs dataset ⟨m, f, n, c, "small"⟩).map
      (fun d => d.metricVal metric)
    match y, s with
    | some a, some b => some ((a + b) / 2)
    | some a, none => some a
    | none, some b => some b
    | none, none => none
  else
    match loadedData fs dataset ⟨m, f, n, c, dataset⟩ with
    | some d => some (d.metricVal metric)
    | none => none

/-- The heatmap row labels `method_format`, in row order. -/
def heatmapCombos : List (String × String) :=
  methods.flatMap (fun m => formats.map (fun f => (m, f)))

/-- The matrix of one heatmap of `create_accuracy_heatmap` (for a fixed
noise): a `none` cell is stored as NaN and annotated 'N/A'. -/
def heatmapMatrix (fs : ComboKey → Option AccData) (dataset noise : String) :
    List (List (Option ℚ)) :=
  heatmapCombos.map (fun mf =>
    compressors.map (fun c => get_accuracy fs dataset mf.1 mf.2 noise c Metric.top1))

/-- Cell `(i, j)` of the heatmap matrix; the outer `some` witnesses that
the cell exists (the plot is produced), the inner option is its value. -/
def matrixCell (fs : ComboKey → Option AccData) (dataset noise : String)
    (i j : ℕ) : Option (Option ℚ) :=
  ((heatmapMatrix fs dataset noise)[i]?).bind (fun row => row[j]?)

theorem mem_allKeys {m f n c ds : String} {dataset : String}
    (hds : ds ∈ datasetsOf dataset) (hm : m ∈ methods) (hf : f ∈ formats)
    (hn : n ∈ noises) (hc : c ∈ compressors) :
    ComboKey.mk m f n c ds ∈ allKeys dataset := by
  rw [allKeys]
  refine List.mem_flatMap.mpr ⟨ds, hds, ?_⟩
  refine List.mem_flatMap.mpr ⟨m, hm, ?_⟩
  refine List.mem_flatMap.mpr ⟨f, hf, ?_⟩
  refine List.mem_flatMap.mpr ⟨n, hn, ?_⟩
  exact List.mem_map.mpr ⟨c, hc, rfl⟩

/-- C5: a combination whose backing file is absent or unreadable is
tallied in `missing_combinations`, `get_accuracy` returns `None` for it,
and its heatmap cell exists but holds `none` (NaN, annotated 'N/A'),
while every combination whose file did load keeps its value. -/
theorem claim_C5_missing_combination_tolerated
    (fs : ComboKey → Option AccData) (dataset : String) (hd : dataset ≠ "both")
    (m f n c : String) (hm : m ∈ methods) (hf : f ∈ formats) (hn : n ∈ noises)
    (hc : c ∈ compressors) (habsent : fs ⟨m, f, n, c, dataset⟩ = none) :
    ComboKey.mk m f n c dataset ∈ missingCombinations fs dataset ∧
    (∀ metric, get_accuracy fs dataset m f n c metric = none) ∧
    (∀ i j, heatmapCombos[i]? = some (m, f) → compressors[j]? = some c →
      matrixCell fs dataset n i j = some none) ∧
    (∀ m' f' n' c' d, m' ∈ methods → f' ∈ formats → n' ∈ noises →
      c' ∈ compressors → fs ⟨m', f', n', c', dataset⟩ = some d →
      ∀ metric, get_accuracy fs dataset m' f' n' c' metric =
        some (d.metricVal metric)) := by
  have hds : dataset ∈ datasetsOf dataset := by
    rw [datasetsOf, if_neg hd]; exact List.mem_singleton.mpr rfl
  have hkey := mem_allKeys hds hm hf hn hc
  have hnone : ∀ metric, get_accuracy fs dataset m f n c metric = none := by
    intro metric
    rw [get_accuracy, if_neg hd]
    simp only [loadedData, habsent, ite_self]
  refine ⟨?_, hnone, ?_, ?_⟩
  · exact List.mem_filter.mpr ⟨hkey, by simp [habsent]⟩
  · intro i j hi hj
    rw [matrixCell, heatmapMatrix, List.getElem?_map, hi]
    simp only [Option.map_some', Option.some_bind, List.getElem?_map, hj, hnone]
  · intro m' f' n' c' d hm' hf' hn' hc' hload metric
    rw [get_accuracy, if_neg hd]
    have hk' := mem_allKeys hds hm' hf' hn' hc'
    simp only [loadedData, if_pos hk', hload]

/-- The combination whose backing file is missing in the C5 witness. -/
def demoMissingKey : ComboKey := ⟨"maxfreq", "text", "clean", "gzip", "youtube"⟩

/-- A filesystem where exactly `demoMissingKey` has no backing file. -/
def demoFs : ComboKey → Option AccData :=
  fun key => if key = demoMissingKey then none else some ⟨50, 60, 70⟩

/-- Witness for C5 at a concrete filesystem with one missing file. -/
theorem claim_C5_missing_combination_tolerated_witness :
    demoFs demoMissingKey = none ∧
    (demoMissingKey ∈ missingCombinations demoFs "youtube" ∧
     get_accuracy demoFs "youtube" "maxfreq" "text" "clean" "gzip" Metric.top1 = none ∧
     matrixCell demoFs "youtube" "clean" 0 0 = some none) := by
  have h := claim_C5_missing_combination_tolerated demoFs "youtube" (by decide)
    "maxfreq" "text" "clean" "gzip" (by decide) (by decide) (by decide)
    (by decide) (by rfl)
  exact ⟨by rfl, h.1, h.2.1 Metric.top1, h.2.2.1 0 0 (by rfl) (by rfl)⟩

/-! ## `main` (src/visualize_results.py, lines 516-571 and
src/visualization/visualize_results.py, lines 20-75)

The filesystem is abstracted by an existence predicate on paths, and the
downstream loading step by an `Except`-valued function (a raised Python
exception is an `.error`). -/

/-- A Python exception. -/
structure PyErr where
  message : List Char
deriving DecidableEq

/-- `os.path.join` for the simple one-level joins used in `main`. -/
def joinPath (a b : List Char) : List Char := a ++ '/' :: b

/-- The hardcoded fallback paths tried when the input file is not at the
given path (`possible_paths`); both scripts use the same directories. -/
def fallbackPaths (fileName : List Char) : List (List Char) :=
  ["results/latest/".toList ++ fileName,
   "../results/latest/".toList ++ fileName,
   "results/".toList ++ fileName]

/-- Resolution of the results file: the path inside the input folder when
it exists, otherwise the first existing fallback, otherwise `none`. -/
def resolveResultsFile (pathExists : List Char → Bool)
    (inputFolder fileName : List Char) : Option (List Char) :=
  let p0 := joinPath inputFolder fileName
  if pathExists p0 then some p0
  else
    match (fallbackPaths fileName).find? pathExists with
    | some p => some p
    | none => none

/-- The outcome of `main` after the file-resolution step. -/
inductive MainResult
  | earlyReturn (messages : List (List Char))
  | completed (resolvedPath : List Char)
deriving DecidableEq

/-- The two error lines printed on the missing-file path; the printed path
is the one under the input folder, which is what the variable still holds
when no fallback matched. -/
def missingFileMessages (inputFolder fileName : List Char) : List (List Char) :=
  ["Error: Could not find input file at ".toList ++ joinPath inputFolder fileName,
   "Please provide a valid file path using the --input argument.".toList]

/-- The tail of `main` from the file-resolution step on: with no file
found anywhere it prints the error lines and returns normally; otherwise
it loads the file (which may raise) and proceeds to the plotting phase. -/
def mainRun (pathExists : List Char → Bool)
    (load : List Char → Except PyErr Unit)
    (inputFolder fileName : List Char) : Except PyErr MainResult :=
  match resolveResultsFile pathExists inputFolder fileName with
  | none => .ok (.earlyReturn (missingFileMessages inputFolder fileName))
  | some p => (load p).map (fun _ => .completed p)

/-- C7: when the results file exists neither at the given path nor at any
fallback path, `main` prints the error message and returns early: the run
is an `.ok` early return carrying only the error lines — no exception
propagates (whatever the loader would have done) and no plot or summary is
produced. -/
theorem claim_C7_missing_input_early_return
    (pathExists : List Char → Bool) (load : List Char → Except PyErr Unit)
    (inputFolder fileName : List Char)
    (h0 : pathExists (joinPath inputFolder fileName) = false)
    (hf : ∀ p ∈ fallbackPaths fileName, pathExists p = false) :
    mainRun pathExists load inputFolder fileName =
      .ok (.earlyReturn (missingFileMessages inputFolder fileName)) := by
  have hfind : (fallbackPaths fileName).find? pathExists = none :=
    List.find?_eq_none.mpr (fun p hp => by simp [hf p hp])
  rw [mainRun, resolveResultsFile]
  simp only [h0, Bool.false_eq_true, if_false, hfind]

/-- A filesystem on which nothing exists. -/
def demoNoFile : List Char → Bool := fun _ => false

/-- A loader that would raise if it were ever called. -/
def demoRaisingLoad : List Char → Except PyErr Unit :=
  fun _ => .error ⟨"No such file or directory".toList⟩

/-- Witness for C7: on an empty filesystem, even with a raising loader,
the run ends in an `.ok` early return with the error messages. -/
theorem claim_C7_missing_input_early_return_witness :
    demoNoFile (joinPath ("results/latest".toList) ("test_results.json".toList)) = false ∧
    (∀ p ∈ fallbackPaths ("test_results.json".toList), demoNoFile p = false) ∧
    mainRun demoNoFile demoRaisingLoad ("results/latest".toList)
        ("test_results.json".toList) =
      .ok (.earlyReturn (missingFileMessages ("results/latest".toList)
        ("test_results.json".toList))) :=
  ⟨rfl, fun _ _ => rfl,
   claim_C7_missing_input_early_return demoNoFile demoRaisingLoad _ _
     rfl (fun _ _ => rfl)⟩

/-! ## `get_timestamp_from_info` (src/visualization/data_handler.py,
lines 76-93 and src/visualize_results.py, lines 498-514)

The info file is `none` when `info.txt` does not exist, otherwise its list
of lines. The wall clock is an explicit parameter `now`, holding the
current time already formatted as `%Y%m%d_%H%M%S`; a deterministic
function of the input must not depend on it. -/

/-- The first `Date and Time:` line's timestamp: the text after the first
colon, stripped (`line.split(':', 1)[1].strip()`). -/
def findTimestampLine : List (List Char) → Option (List Char)
  | [] => none
  | line :: rest =>
    if ("Date and Time:".toList).isPrefixOf line then
      some (stripPy isSpacePy ((line.dropWhile (fun c => c != ':')).drop 1))
    else findTimestampLine rest

/-- `get_timestamp_from_info`: the timestamp from `info.txt` when
present, otherwise the current time. -/
def get_timestamp_from_info (infoLines : Option (List (List Char)))
    (now : List Char) : List Char :=
  match infoLines with
  | some lines =>
    match findTimestampLine lines with
    | some ts => ts
    | none => now
  | none => now

/-- C8 counterexample: with the same input data (no `info.txt`), two runs
at different wall-clock times extract different timestamps, so the
timestamp used for output naming is not a function of the input alone. -/
theorem claim_C8_counterexample :
    get_timestamp_from_info none ("20250101_000000".toList) ≠
    get_timestamp_from_info none ("20250102_000000".toList) := by
  decide

/-- C8 (amended): the dataframe transforms are pure functions of their
input, and the extracted timestamp is identical between runs whenever the
info file provides a `Date and Time:` line; only the fallback branch
consults the wall clock. -/
theorem claim_C8_timestamp_deterministic_with_info_line
    (lines : List (List Char)) (ts : List Char)
    (h : findTimestampLine lines = some ts) :
    ∀ now₁ now₂ : List Char,
      get_timestamp_from_info (some lines) now₁ =
        get_timestamp_from_info (some lines) now₂ ∧
      get_timestamp_from_info (some lines) now₁ = ts := by
  intro n1 n2
  rw [get_timestamp_from_info, get_timestamp_from_info, h]
  exact ⟨rfl, rfl⟩

/-- A concrete `info.txt` with a timestamp line. -/
def demoInfoLines : List (List Char) :=
  ["Experiment batch 3".toList, "Date and Time: 20240101_120000".toList]

/-- Witness for the amended C8 at a concrete info file and two distinct
clock readings. -/
theorem claim_C8_timestamp_deterministic_with_info_line_witness :
    findTimestampLine demoInfoLines = some ("20240101_120000".toList) ∧
    (get_timestamp_from_info (some demoInfoLines) ("20250101_000000".toList) =
       get_timestamp_from_info (some demoInfoLines) ("20250102_000000".toList) ∧
     get_timestamp_from_info (some demoInfoLines) ("20250101_000000".toList) =
       "20240101_120000".toList) :=
  ⟨by decide,
   claim_C8_timestamp_deterministic_with_info_line demoInfoLines _ (by decide)
     ("20250101_000000".toList) ("20250102_000000".toList)⟩

/-! ## `generate_summary_statistics` (src/visualization/data_handler.py,
lines 95-115 and src/visualize_results.py, lines 588-600) -/

/-- `Counter(names).most_common(1)[0][0]`: the earliest-inserted name with
the highest count (`Counter` preserves first-insertion order and
`most_common` sorts stably by descending count); `none` models the
`IndexError` on an empty series. -/
def mostCommonName (names : List (List Char)) : Option (List Char) :=
  names.dedup.foldl (fun best n =>
    match best with
    | none => some n
    | some b => if names.count b < names.count n then some n else best) none

/-- The rank-1 sub-series of the nrc column with its original index
labels: `df[df['rank'] == 1]['nrc']`. -/
def rank1Nrc (df : List NrcRow) : List (ℕ × ℚ) :=
  (df.enum.filter (fun p => p.2.rank == 1)).map (fun p => (p.1, p.2.nrc))

/-- One comparison of the idxmin scan: keep the earlier entry unless the
new one is strictly smaller (so the first minimum wins). -/
def argminStep (best q : ℕ × ℚ) : ℕ × ℚ := if q.2 < best.2 then q else best

/-- `Series.idxmin`: the index label of the first occurrence of the
minimum value. -/
def seriesIdxmin : List (ℕ × ℚ) → Option ℕ
  | [] => none
  | p :: rest => some ((rest.foldl argminStep p).1)

/-- The summary record returned by `generate_summary_statistics`. -/
structure SummaryStats where
  top_organism : List Char
  best_nrc : ℚ
  best_k : ℤ
  best_alpha : ℚ
deriving DecidableEq

/-- `generate_summary_statistics`: the most frequent rank-1 organism, the
minimum rank-1 nrc, and the `k` and `alpha` of the row `df.loc[idxmin]`
(index labels are the positions in `df`). `none` models the exception
raised when `df` has no rank-1 row. -/
def generate_summary_statistics (df : List NrcRow) : Option SummaryStats :=
  let r1 := df.filter (fun r => r.rank == 1)
  match mostCommonName (r1.map (fun r => r.name)),
      seriesMin (r1.map (fun r => r.nrc)),
      seriesIdxmin (rank1Nrc df) with
  | some org, some bn, some i =>
    match df[i]? with
    | some row => some ⟨org, bn, row.k, row.alpha⟩
    | none => none
  | _, _, _ => none

/-! ### Lemmas about the argmin fold -/

theorem argmin_foldl_spec :
    ∀ (rest : List (ℕ × ℚ)) (p : ℕ × ℚ),
      rest.foldl argminStep p ∈ p :: rest ∧
      ∀ q ∈ p :: rest, (rest.foldl argminStep p).2 ≤ q.2 := by
  intro rest
  induction rest with
  | nil =>
    intro p
    refine ⟨List.mem_singleton.mpr rfl, ?_⟩
    intro q hq
    rw [List.mem_singleton.mp hq]
    exact le_refl p.2
  | cons q rest ih =>
    intro p
    rw [List.foldl_cons]
    by_cases hlt : q.2 < p.2
    · have harg : argminStep p q = q := if_pos hlt
      rw [harg]
      rcases ih q with ⟨hmem, hbound⟩
      refine ⟨List.mem_cons_of_mem p hmem, ?_⟩
      intro x hx
      rcases List.mem_cons.mp hx with h | h
      · have h1 : (rest.foldl argminStep q).2 ≤ q.2 :=
          hbound q (List.mem_cons_self q rest)
        rw [h]
        exact le_trans h1 (le_of_lt hlt)
      · exact hbound x h
    · have harg : argminStep p q = p := if_neg hlt
      rw [harg]
      rcases ih p with ⟨hmem, hbound⟩
      refine ⟨?_, ?_⟩
      · rcases List.mem_cons.mp hmem with h | h
        · rw [h]; exact List.mem_cons_self p (q :: rest)
        · exact List.mem_cons_of_mem p (List.mem_cons_of_mem q h)
      · intro x hx
        rcases List.mem_cons.mp hx with h | h
        · rw [h]; exact hbound p (List.mem_cons_self p rest)
        · rcases List.mem_cons.mp h with h' | h'
          · have h1 : (rest.foldl argminStep p).2 ≤ p.2 :=
              hbound p (List.mem_cons_self p rest)
            rw [h']
            exact le_trans h1 (not_lt.mp hlt)
          · exact hbound x (List.mem_cons_of_mem p h')

/-- The minimum fold over the values agrees with the value at the argmin. -/
theorem seriesMin_eq_argmin :
    ∀ (rest : List (ℕ × ℚ)) (p : ℕ × ℚ),
      (rest.map (fun q => q.2)).foldl (fun acc v =>
        match acc with
        | none => some v
        | some m => some (min m v)) (some p.2) =
      some ((rest.foldl argminStep p).2) := by
  intro rest
  induction rest with
  | nil => intro p; rfl
  | cons q rest ih =>
    intro p
    rw [List.map_cons, List.foldl_cons, List.foldl_cons]
    have hstep : (argminStep p q).2 = min p.2 q.2 := by
      rw [argminStep]
      by_cases hlt : q.2 < p.2
      · rw [if_pos hlt, min_eq_right (le_of_lt hlt)]
      · rw [if_neg hlt, min_eq_left (not_lt.mp hlt)]
    calc (rest.map (fun q => q.2)).foldl _ (some (min p.2 q.2))
        = some ((rest.foldl argminStep (argminStep p q)).2) := by
          rw [← hstep]; exact ih (argminStep p q)

/-! ### Lemmas about `enumFrom` -/

theorem enumFrom_getElem {α : Type} :
    ∀ {l : List α} {n i : ℕ} {a : α}, (i, a) ∈ l.enumFrom n →
      n ≤ i ∧ l[i - n]? = some a := by
  intro l
  induction l with
  | nil => intro n i a h; simp [List.enumFrom] at h
  | cons b t ih =>
    intro n i a h
    rw [List.enumFrom] at h
    rcases List.mem_cons.mp h with h | h
    · injection h with h1 h2
      subst h1
      subst h2
      refine ⟨le_refl _, ?_⟩
      rw [Nat.sub_self]
      simp
    · rcases ih h with ⟨h1, h2⟩
      refine ⟨le_trans (Nat.le_succ n) h1, ?_⟩
      have : i - n = (i - (n + 1)) + 1 := by omega
      rw [this]
      simpa using h2

theorem mem_enumFrom_of_mem {α : Type} {a : α} :
    ∀ {l : List α}, a ∈ l → ∀ n : ℕ, ∃ i, (i, a) ∈ l.enumFrom n := by
  intro l
  induction l with
  | nil => intro h; simp at h
  | cons b t ih =>
    intro h n
    rcases List.mem_cons.mp h with h | h
    · exact ⟨n, by rw [List.enumFrom, h]; exact List.mem_cons_self _ _⟩
    · rcases ih h (n + 1) with ⟨i, hi⟩
      exact ⟨i, by rw [List.enumFrom]; exact List.mem_cons_of_mem _ hi⟩

theorem enumFrom_filter_map {α β : Type} (q : α → Bool) (g : α → β) :
    ∀ (l : List α) (n : ℕ),
      ((l.enumFrom n).filter (fun p => q p.2)).map (fun p => g p.2) =
        (l.filter q).map g := by
  intro l
  induction l with
  | nil => intro n; rfl
  | cons a t ih =>
    intro n
    rw [List.enumFrom]
    cases hq : q a with
    | true =>
      rw [List.filter_cons_of_pos (by simpa using hq),
        List.filter_cons_of_pos (by simpa using hq),
        List.map_cons, List.map_cons, ih]
    | false =>
      rw [List.filter_cons_of_neg (by simpa using hq),
        List.filter_cons_of_neg (by simpa using hq)]
      exact ih (n + 1)

theorem mostCommonName_isSome {names : List (List Char)} (h : names ≠ []) :
    ∃ x, mostCommonName names = some x := by
  rw [mostCommonName]
  have hd : names.dedup ≠ [] := fun hnil => h ((List.dedup_eq_nil _).mp hnil)
  cases hdd : names.dedup with
  | nil => exact absurd hdd hd
  | cons x xs =>
    rw [List.foldl_cons]
    have key : ∀ (l : List (List Char)) (b : List Char),
        ∃ y, l.foldl (fun best n =>
          match best with
          | none => some n
          | some b' => if names.count b' < names.count n then some n else best)
          (some b) = some y := by
      intro l
      induction l with
      | nil => intro b; exact ⟨b, rfl⟩
      | cons n rest ih =>
        intro b
        rw [List.foldl_cons]
        dsimp only
        by_cases hc : names.count b < names.count n
        · rw [if_pos hc]; exact ih n
        · rw [if_neg hc]; exact ih b
    exact key xs x

/-- C10: on a DataFrame with at least one rank-1 row,
`generate_summary_statistics` reports `best_nrc` equal to the minimum nrc
over the rank-1 rows, and `best_k`, `best_alpha` are taken from a rank-1
row attaining that minimum. -/
theorem claim_C10_best_parameters (df : List NrcRow)
    (h : ∃ r ∈ df, r.rank = 1) :
    ∃ stats row, generate_summary_statistics df = some stats ∧
      row ∈ df ∧ row.rank = 1 ∧ stats.best_nrc = row.nrc ∧
      (∀ r' ∈ df, r'.rank = 1 → row.nrc ≤ r'.nrc) ∧
      stats.best_k = row.k ∧ stats.best_alpha = row.alpha := by
  obtain ⟨r0, hr0mem, hr0rank⟩ := h
  -- the rank-1 sub-series is nonempty
  obtain ⟨i0, hi0⟩ := mem_enumFrom_of_mem hr0mem 0
  have hr0nrc : (i0, r0.nrc) ∈ rank1Nrc df := by
    rw [rank1Nrc]
    exact List.mem_map.mpr ⟨(i0, r0),
      List.mem_filter.mpr ⟨hi0, by simp [hr0rank]⟩, rfl⟩
  cases hE : rank1Nrc df with
  | nil => rw [hE] at hr0nrc; exact absurd hr0nrc (List.not_mem_nil _)
  | cons p rest =>
    obtain ⟨hbestmem, hbestbound⟩ := argmin_foldl_spec rest p
    rw [← hE] at hbestmem hbestbound
    -- decompose the argmin element back into an index and a row of df
    rw [rank1Nrc] at hbestmem
    obtain ⟨⟨iidx, row⟩, hprfil, hpair⟩ := List.mem_map.mp hbestmem
    obtain ⟨hprenum, hprrank⟩ := List.mem_filter.mp hprfil
    have hfst : iidx = (rest.foldl argminStep p).1 := by rw [← hpair]
    have hsnd : row.nrc = (rest.foldl argminStep p).2 := by rw [← hpair]
    obtain ⟨-, hgetsub⟩ := enumFrom_getElem hprenum
    rw [Nat.sub_zero] at hgetsub
    have hrowrank : row.rank = 1 := by simpa using hprrank
    have hrowmem : row ∈ df := by
      obtain ⟨hlt, hr⟩ := List.getElem?_eq_some_iff.mp hgetsub
      rw [← hr]
      exact List.getElem_mem hlt
    -- the three scrutinees of generate_summary_statistics
    have hr1ne : df.filter (fun r => r.rank == 1) ≠ [] :=
      List.ne_nil_of_mem (List.mem_filter.mpr ⟨hr0mem, by simp [hr0rank]⟩)
    obtain ⟨org, horg⟩ :=
      @mostCommonName_isSome ((df.filter (fun r => r.rank == 1)).map (fun r => r.name))
        (by simpa using hr1ne)
    have hmapsnd : (rank1Nrc df).map (fun q => q.2) =
        (df.filter (fun r => r.rank == 1)).map (fun r => r.nrc) := by
      rw [rank1Nrc, List.map_map]
      exact enumFrom_filter_map (fun r => r.rank == 1) (fun r => r.nrc) df 0
    have hmin : seriesMin ((df.filter (fun r => r.rank == 1)).map (fun r => r.nrc)) =
        some ((rest.foldl argminStep p).2) := by
      rw [← hmapsnd, hE, seriesMin, List.map_cons, List.foldl_cons]
      exact seriesMin_eq_argmin rest p
    have hidx : seriesIdxmin (rank1Nrc df) = some ((rest.foldl argminStep p).1) := by
      rw [hE, seriesIdxmin]
    have hgot : df[(rest.foldl argminStep p).1]? = some row := by
      rw [← hfst]; exact hgetsub
    refine ⟨⟨org, (rest.foldl argminStep p).2, row.k, row.alpha⟩, row,
      ?_, hrowmem, hrowrank, hsnd.symm, ?_, rfl, rfl⟩
    · rw [generate_summary_statistics]
      simp only [horg, hmin, hidx, hgot]
    · intro r' hr'mem hr'rank
      obtain ⟨i', hi'⟩ := mem_enumFrom_of_mem hr'mem 0
      have hr'nrc : (i', r'.nrc) ∈ rank1Nrc df := by
        rw [rank1Nrc]
        exact List.mem_map.mpr ⟨(i', r'),
          List.mem_filter.mpr ⟨hi', by simp [hr'rank]⟩, rfl⟩
      have := hbestbound (i', r'.nrc) (hE ▸ hr'nrc)
      rw [hsnd]
      exact this

/-- Witness for C10 at the two-row example DataFrame. -/
theorem claim_C10_best_parameters_witness :
    (∃ r ∈ demoNrcDf, r.rank = 1) ∧
    ∃ stats row, generate_summary_statistics demoNrcDf = some stats ∧
      row ∈ demoNrcDf ∧ row.rank = 1 ∧ stats.best_nrc = row.nrc ∧
      (∀ r' ∈ demoNrcDf, r'.rank = 1 → row.nrc ≤ r'.nrc) ∧
      stats.best_k = row.k ∧ stats.best_alpha = row.alpha :=
  ⟨⟨demoRowX1, by decide, rfl⟩,
   claim_C10_best_parameters demoNrcDf ⟨demoRowX1, by decide, rfl⟩⟩

end TAI
